import Mathlib

/-!
Shallow embedding of the real-time zoom compositor core of
`mynk0527/react-video-editor` (`src/components/video-preview.tsx` and
`src/lib/types.ts`).  JavaScript numbers are modelled as exact rationals:
every arithmetic operation the core performs (+, -, *, /, cubing,
absolute value, comparisons) is exactly representable over ℚ.
-/

/-- The `zoomStyle` union type `"in-only" | "out-only" | "in-out"`
from `src/lib/types.ts`. -/
inductive ZoomStyle where
  | inOnly
  | outOnly
  | inOut
deriving DecidableEq, Repr

/-- The `ZoomEffect` interface from `src/lib/types.ts`.  The optional
`zoomStyle` field is an `Option`; `none` models an absent field. -/
structure ZoomEffect where
  id : String
  startTime : ℚ
  duration : ℚ
  level : ℚ
  centerX : ℚ
  centerY : ℚ
  zoomStyle : Option ZoomStyle
deriving DecidableEq, Repr

/-- The record returned by `calculateZoomParameters`
(`video-preview.tsx`, lines 95-102 and 137-142). -/
structure ZoomParams where
  zoom : ℚ
  centerX : ℚ
  centerY : ℚ
  isActive : Bool
deriving DecidableEq, Repr

/-- The three-field zoom state stored in `prevZoomStateRef`
(`video-preview.tsx`, lines 43-47). -/
structure ZoomState where
  zoom : ℚ
  centerX : ℚ
  centerY : ℚ
deriving DecidableEq, Repr

/-- Forgetting the `isActive` flag: `interpolateZoomState` only reads the
`zoom`, `centerX` and `centerY` fields of its first argument. -/
def ZoomParams.toState (p : ZoomParams) : ZoomState :=
  ⟨p.zoom, p.centerX, p.centerY⟩

/-- The predicate of the `zoomEffects.find` call
(`video-preview.tsx`, line 92):
`time >= effect.startTime && time <= effect.startTime + effect.duration`. -/
def isEffectActiveAt (time : ℚ) (effect : ZoomEffect) : Bool :=
  decide (effect.startTime ≤ time) &&
    decide (time ≤ effect.startTime + effect.duration)

/-- The effect lookup (`video-preview.tsx`, lines 91-93):
`zoomEffects.find(...)` returns the first matching element or none. -/
def findActiveEffect (zoomEffects : List ZoomEffect) (time : ℚ) :
    Option ZoomEffect :=
  zoomEffects.find? (isEffectActiveAt time)

/-- The function `easeInOutCubic` (`video-preview.tsx`, lines 114-115):
`t < 0.5 ? 4 * t * t * t : 1 - Math.pow(-2 * t + 2, 3) / 2`. -/
def easeInOutCubic (t : ℚ) : ℚ :=
  if t < 0.5 then 4 * t * t * t else 1 - (-2 * t + 2) ^ 3 / 2

/-- The `zoomProgress` computation of `calculateZoomParameters`
(`video-preview.tsx`, lines 108-132), including the
`activeEffect.zoomStyle || 'in-out'` defaulting on line 111. -/
def zoomProgressOf (activeEffect : ZoomEffect) (progress : ℚ) : ℚ :=
  match activeEffect.zoomStyle.getD ZoomStyle.inOut with
  | ZoomStyle.inOut =>
      if progress < 0.5 then easeInOutCubic (progress * 2)
      else easeInOutCubic ((1 - progress) * 2)
  | ZoomStyle.inOnly => easeInOutCubic progress
  | ZoomStyle.outOnly => easeInOutCubic (1 - progress)

/-- The resolver `calculateZoomParameters` (`video-preview.tsx`, lines 89-143). -/
def calculateZoomParameters (zoomEffects : List ZoomEffect) (time : ℚ) :
    ZoomParams :=
  match findActiveEffect zoomEffects time with
  | none => ⟨1, 0.5, 0.5, false⟩
  | some activeEffect =>
      let progress := (time - activeEffect.startTime) / activeEffect.duration
      let zoomProgress := zoomProgressOf activeEffect progress
      let zoom := 1 + (activeEffect.level - 1) * zoomProgress
      ⟨zoom, activeEffect.centerX, activeEffect.centerY, true⟩

/-- The smoother `interpolateZoomState` (`video-preview.tsx`, lines 146-156). -/
def interpolateZoomState (current : ZoomState) (previous : Option ZoomState)
    (factor : ℚ) : ZoomState :=
  match previous with
  | none => current
  | some previous =>
      ⟨previous.zoom + (current.zoom - previous.zoom) * factor,
       previous.centerX + (current.centerX - previous.centerX) * factor,
       previous.centerY + (current.centerY - previous.centerY) * factor⟩

/-- The adaptive smoothing factor (`video-preview.tsx`, line 182):
`Math.abs(videoTimeDelta) > 0.1 ? 0.8 : 0.3`. -/
def interpolationFactorOf (videoTimeDelta : ℚ) : ℚ :=
  if 0.1 < |videoTimeDelta| then 0.8 else 0.3

/-- Abstract render-surface commands: the 2D-context calls that
`renderFrame` issues (`video-preview.tsx`, lines 193-217). -/
inductive RenderOp where
  | clearRect (x y w h : ℚ)
  | save
  | translate (x y : ℚ)
  | scale (sx sy : ℚ)
  | drawImage (x y w h : ℚ)
  | restore
deriving DecidableEq, Repr

/-- The mutable refs `renderFrame` reads and writes each tick:
`lastTimeRef`, `lastVideoTimeRef` and `prevZoomStateRef`. -/
structure RenderRefs where
  lastTime : ℚ
  lastVideoTime : ℚ
  prevZoomState : Option ZoomState
deriving DecidableEq, Repr

/-- One tick of `renderFrame` (`video-preview.tsx`, lines 159-224) on the
main path (video, canvas and context available): returns the updated refs
and the list of context commands issued, in order. -/
def renderFrame (zoomEffects : List ZoomEffect)
    (canvasWidth canvasHeight : ℚ) (refs : RenderRefs)
    (timestamp videoCurrentTime : ℚ) : RenderRefs × List RenderOp :=
  let videoTimeDelta := videoCurrentTime - refs.lastVideoTime
  let currentParams := calculateZoomParameters zoomEffects videoCurrentTime
  let interpolationFactor := interpolationFactorOf videoTimeDelta
  let smoothedParams :=
    interpolateZoomState currentParams.toState refs.prevZoomState
      interpolationFactor
  let refsOut : RenderRefs := ⟨timestamp, videoCurrentTime, some smoothedParams⟩
  let ops :=
    RenderOp.clearRect 0 0 canvasWidth canvasHeight ::
      (if currentParams.isActive then
        let centerX := smoothedParams.centerX * canvasWidth
        let centerY := smoothedParams.centerY * canvasHeight
        let zoomLevel := smoothedParams.zoom
        [RenderOp.save,
         RenderOp.translate centerX centerY,
         RenderOp.scale zoomLevel zoomLevel,
         RenderOp.translate (-centerX) (-centerY),
         RenderOp.drawImage 0 0 canvasWidth canvasHeight,
         RenderOp.restore]
      else
        [RenderOp.drawImage 0 0 canvasWidth canvasHeight])
  (refsOut, ops)

/-- A 2D affine transform, in the 2D-context convention
`(a, b, c, d, e, f)`: the matrix `[[a, c, e], [b, d, f]]`. -/
structure Affine where
  a : ℚ
  b : ℚ
  c : ℚ
  d : ℚ
  e : ℚ
  f : ℚ
deriving DecidableEq, Repr

/-- The identity transform. -/
def Affine.idT : Affine := ⟨1, 0, 0, 1, 0, 0⟩

/-- Matrix product `m · n`: as a map on points, `n` is applied first. -/
def Affine.comp (m n : Affine) : Affine :=
  ⟨m.a * n.a + m.c * n.b,
   m.b * n.a + m.d * n.b,
   m.a * n.c + m.c * n.d,
   m.b * n.c + m.d * n.d,
   m.a * n.e + m.c * n.f + m.e,
   m.b * n.e + m.d * n.f + m.f⟩

/-- The call `ctx.translate(x, y)` as a transform. -/
def Affine.translateT (x y : ℚ) : Affine := ⟨1, 0, 0, 1, x, y⟩

/-- The call `ctx.scale(sx, sy)` as a transform. -/
def Affine.scaleT (sx sy : ℚ) : Affine := ⟨sx, 0, 0, sy, 0, 0⟩

/-- Applying a transform to a point. -/
def Affine.apply (m : Affine) (p : ℚ × ℚ) : ℚ × ℚ :=
  (m.a * p.1 + m.c * p.2 + m.e, m.b * p.1 + m.d * p.2 + m.f)

/-- Interprets a command list with 2D-context semantics (`translate` and
`scale` post-multiply the current transform; `save` pushes it, `restore`
pops it) and returns the current transform in effect at the first
`drawImage`, or none when nothing is drawn. -/
def ctmAtDraw : List RenderOp → Affine → List Affine → Option Affine
  | [], _, _ => none
  | RenderOp.drawImage _ _ _ _ :: _, m, _ => some m
  | RenderOp.translate x y :: rest, m, s =>
      ctmAtDraw rest (m.comp (Affine.translateT x y)) s
  | RenderOp.scale sx sy :: rest, m, s =>
      ctmAtDraw rest (m.comp (Affine.scaleT sx sy)) s
  | RenderOp.save :: rest, m, s => ctmAtDraw rest m (m :: s)
  | RenderOp.restore :: rest, m, s =>
      match s with
      | [] => ctmAtDraw rest m []
      | m' :: s' => ctmAtDraw rest m' s'
  | RenderOp.clearRect _ _ _ _ :: rest, m, s => ctmAtDraw rest m s

/-! ## Helper lemmas about the easing function -/

theorem easeInOutCubic_zero : easeInOutCubic 0 = 0 := by
  norm_num [easeInOutCubic]

theorem easeInOutCubic_one : easeInOutCubic 1 = 1 := by
  norm_num [easeInOutCubic]

theorem easeInOutCubic_half : easeInOutCubic 0.5 = 0.5 := by
  norm_num [easeInOutCubic]

theorem easeInOutCubic_mono {a b : ℚ} (ha : 0 ≤ a) (hab : a ≤ b)
    (hb : b ≤ 1) : easeInOutCubic a ≤ easeInOutCubic b := by
  have h05 : (0.5 : ℚ) = 1 / 2 := by norm_num
  unfold easeInOutCubic
  rw [h05]
  split
  · split
    · nlinarith [pow_le_pow_left₀ ha hab 3]
    · have hb2 : (1 : ℚ) / 2 ≤ b := le_of_not_lt (by assumption)
      have hu0 : (0 : ℚ) ≤ -2 * b + 2 := by linarith
      have hu1 : (-2 : ℚ) * b + 2 ≤ 1 := by linarith
      have hcube : (-2 * b + 2) ^ 3 ≤ 1 ^ 3 := pow_le_pow_left₀ hu0 hu1 3
      have ha2 : a ≤ 1 / 2 := le_of_lt (by assumption)
      have hacube : a ^ 3 ≤ (1 / 2) ^ 3 := pow_le_pow_left₀ ha ha2 3
      nlinarith
  · split
    · exfalso
      have : (1 : ℚ) / 2 ≤ a := le_of_not_lt (by assumption)
      have : b < 1 / 2 := by assumption
      linarith
    · have ha2 : (1 : ℚ) / 2 ≤ a := le_of_not_lt (by assumption)
      have hv0 : (0 : ℚ) ≤ -2 * b + 2 := by linarith
      have hvu : -2 * b + 2 ≤ -2 * a + 2 := by linarith
      have hcube : (-2 * b + 2) ^ 3 ≤ (-2 * a + 2) ^ 3 :=
        pow_le_pow_left₀ hv0 hvu 3
      linarith

theorem easeInOutCubic_nonneg {t : ℚ} (h0 : 0 ≤ t) (h1 : t ≤ 1) :
    0 ≤ easeInOutCubic t := by
  have := easeInOutCubic_mono (le_refl 0) h0 h1
  rwa [easeInOutCubic_zero] at this

theorem easeInOutCubic_le_one {t : ℚ} (h0 : 0 ≤ t) (h1 : t ≤ 1) :
    easeInOutCubic t ≤ 1 := by
  have := easeInOutCubic_mono h0 h1 (le_refl 1)
  rwa [easeInOutCubic_one] at this

/-- C5: `easeInOutCubic` computes `4*t^3` for `t < 0.5` and
`1 - (-2t + 2)^3 / 2` for `t ≥ 0.5`; for every `t` in `[0,1]` its value is
in `[0,1]`; it satisfies `f(0) = 0`, `f(1) = 1`, `f(0.5) = 0.5`; and it is
monotonically increasing on `[0,1]`. -/
theorem easeInOutCubic_spec (t a b : ℚ) (ht0 : 0 ≤ t) (ht1 : t ≤ 1)
    (ha : 0 ≤ a) (hab : a ≤ b) (hb : b ≤ 1) :
    easeInOutCubic t =
      (if t < 0.5 then 4 * t ^ 3 else 1 - (-2 * t + 2) ^ 3 / 2) ∧
    0 ≤ easeInOutCubic t ∧ easeInOutCubic t ≤ 1 ∧
    easeInOutCubic 0 = 0 ∧ easeInOutCubic 1 = 1 ∧
    easeInOutCubic 0.5 = 0.5 ∧
    easeInOutCubic a ≤ easeInOutCubic b := by
  refine ⟨?_, easeInOutCubic_nonneg ht0 ht1, easeInOutCubic_le_one ht0 ht1,
    easeInOutCubic_zero, easeInOutCubic_one, easeInOutCubic_half,
    easeInOutCubic_mono ha hab hb⟩
  unfold easeInOutCubic
  split <;> ring

/-- Witness for C5 at `t = 0`, `a = 0`, `b = 1`. -/
theorem easeInOutCubic_spec_witness :
    0 ≤ easeInOutCubic (0 : ℚ) ∧ easeInOutCubic (0 : ℚ) ≤ 1 ∧
    easeInOutCubic (0 : ℚ) ≤ easeInOutCubic (1 : ℚ) := by
  obtain ⟨-, h1, h2, -, -, -, h3⟩ :=
    easeInOutCubic_spec 0 0 1 (by decide) (by decide)
      (by decide) (by decide) (by decide)
  exact ⟨h1, h2, h3⟩

/-- C3: the smoother applies
`blended.field = previous.field + (target.field - previous.field) * factor`
independently to `zoom`, `centerX` and `centerY`; with no previous state it
returns the target unchanged for any factor; with factor 1 it returns the
target and with factor 0 the previous state. -/
theorem interpolateZoomState_spec (current previous : ZoomState)
    (factor : ℚ) :
    interpolateZoomState current (some previous) factor =
      ⟨previous.zoom + (current.zoom - previous.zoom) * factor,
       previous.centerX + (current.centerX - previous.centerX) * factor,
       previous.centerY + (current.centerY - previous.centerY) * factor⟩ ∧
    interpolateZoomState current none factor = current ∧
    interpolateZoomState current (some previous) 1 = current ∧
    interpolateZoomState current (some previous) 0 = previous := by
  refine ⟨rfl, rfl, ?_, ?_⟩
  · cases current
    cases previous
    simp only [interpolateZoomState, ZoomState.mk.injEq]
    refine ⟨by ring, by ring, by ring⟩
  · cases current
    cases previous
    simp only [interpolateZoomState, ZoomState.mk.injEq]
    refine ⟨by ring, by ring, by ring⟩

/-- The linear blend `p + (c - p) * f` stays between `p` and `c` for
`f ∈ [0, 1]`. -/
theorem lerp_mem_between {p c f : ℚ} (h0 : 0 ≤ f) (h1 : f ≤ 1) :
    min p c ≤ p + (c - p) * f ∧ p + (c - p) * f ≤ max p c := by
  rcases le_total p c with h | h
  · rw [min_eq_left h, max_eq_right h]
    constructor <;> nlinarith
  · rw [min_eq_right h, max_eq_left h]
    constructor <;> nlinarith

/-- C10: for a present previous state and factor in `[0, 1]`, each field of
the smoother's output lies inclusively between the corresponding fields of
the previous and target states; when target equals previous the output is
the previous state. -/
theorem interpolateZoomState_bounded (current previous : ZoomState)
    (factor : ℚ) (h0 : 0 ≤ factor) (h1 : factor ≤ 1) :
    (min previous.zoom current.zoom ≤
       (interpolateZoomState current (some previous) factor).zoom ∧
     (interpolateZoomState current (some previous) factor).zoom ≤
       max previous.zoom current.zoom) ∧
    (min previous.centerX current.centerX ≤
       (interpolateZoomState current (some previous) factor).centerX ∧
     (interpolateZoomState current (some previous) factor).centerX ≤
       max previous.centerX current.centerX) ∧
    (min previous.centerY current.centerY ≤
       (interpolateZoomState current (some previous) factor).centerY ∧
     (interpolateZoomState current (some previous) factor).centerY ≤
       max previous.centerY current.centerY) ∧
    (current = previous →
      interpolateZoomState current (some previous) factor = previous) := by
  refine ⟨lerp_mem_between h0 h1, lerp_mem_between h0 h1,
    lerp_mem_between h0 h1, ?_⟩
  rintro rfl
  cases current
  simp only [interpolateZoomState, ZoomState.mk.injEq]
  refine ⟨by ring, by ring, by ring⟩

/-- Witness for C10 at factor `1`, previous `⟨1, 0, 0⟩`,
target `⟨2, 1, 1⟩`. -/
theorem interpolateZoomState_bounded_witness :
    min (1 : ℚ) 2 ≤
      (interpolateZoomState ⟨2, 1, 1⟩ (some ⟨1, 0, 0⟩) 1).zoom ∧
    (interpolateZoomState ⟨2, 1, 1⟩ (some ⟨1, 0, 0⟩) 1).zoom ≤
      max (1 : ℚ) 2 :=
  (interpolateZoomState_bounded ⟨2, 1, 1⟩ ⟨1, 0, 0⟩ 1 (by decide)
    (by decide)).1

/-- The function `List.find?` returns the first element satisfying the predicate: the
list splits as `l1 ++ a :: l2` with every element of `l1` failing it. -/
theorem find?_first_match {α : Type} (p : α → Bool) :
    ∀ (l : List α) (a : α), l.find? p = some a →
      ∃ l1 l2, l = l1 ++ a :: l2 ∧ p a = true ∧ ∀ x ∈ l1, p x = false
  | [], a, h => by simp [List.find?] at h
  | x :: xs, a, h => by
    cases hpx : p x with
    | true =>
        rw [List.find?_cons_of_pos _ hpx] at h
        injection h with h
        subst h
        exact ⟨[], xs, rfl, hpx, by simp⟩
    | false =>
        rw [List.find?_cons_of_neg _ (by simp [hpx])] at h
        obtain ⟨l1, l2, heq, hpa, hfail⟩ := find?_first_match p xs a h
        exact ⟨x :: l1, l2, by simp [heq], hpa, by
          intro y hy
          rcases List.mem_cons.mp hy with rfl | hy
          · exact hpx
          · exact hfail y hy⟩

/-- The boolean activity test agrees with the window membership
proposition. -/
theorem isEffectActiveAt_iff (t : ℚ) (e : ZoomEffect) :
    isEffectActiveAt t e = true ↔
      e.startTime ≤ t ∧ t ≤ e.startTime + e.duration := by
  simp [isEffectActiveAt]

/-- C2: the effect lookup returns the first effect in iteration order whose
inclusive window `[startTime, startTime + duration]` covers `t` (both
boundaries match, including `t = startTime` and
`t = startTime + duration` exactly); it returns none on the empty
collection and whenever no window covers `t`.  (The embedding is a pure
function of the list, so the collection is never mutated.) -/
theorem findActiveEffect_spec (effects : List ZoomEffect) (t : ℚ)
    (e : ZoomEffect) (hsome : findActiveEffect effects t = some e) :
    (e ∈ effects ∧ e.startTime ≤ t ∧ t ≤ e.startTime + e.duration ∧
     ∃ l1 l2, effects = l1 ++ e :: l2 ∧
       ∀ e' ∈ l1, ¬(e'.startTime ≤ t ∧ t ≤ e'.startTime + e'.duration)) ∧
    findActiveEffect [] t = none ∧
    (∀ effects' : List ZoomEffect,
      (∀ e' ∈ effects',
        ¬(e'.startTime ≤ t ∧ t ≤ e'.startTime + e'.duration)) →
      findActiveEffect effects' t = none) ∧
    (∀ e' : ZoomEffect, 0 ≤ e'.duration →
      isEffectActiveAt e'.startTime e' = true ∧
      isEffectActiveAt (e'.startTime + e'.duration) e' = true) := by
  refine ⟨?_, rfl, ?_, ?_⟩
  · obtain ⟨l1, l2, heq, hpa, hfail⟩ :=
      find?_first_match (isEffectActiveAt t) effects e hsome
    obtain ⟨h1, h2⟩ := (isEffectActiveAt_iff t e).mp hpa
    refine ⟨List.mem_of_find?_eq_some hsome, h1, h2, l1, l2, heq, ?_⟩
    intro e' he' hcov
    have := (isEffectActiveAt_iff t e').mpr hcov
    rw [hfail e' he'] at this
    exact Bool.false_ne_true this
  · intro effects' hnone
    refine List.find?_eq_none.mpr ?_
    intro e' he'
    intro hp
    exact hnone e' he' ((isEffectActiveAt_iff t e').mp hp)
  · intro e' hd
    constructor <;> rw [isEffectActiveAt_iff] <;> constructor <;> linarith

/-- Witness for C2: a singleton collection whose effect covers `t = 1`. -/
theorem findActiveEffect_spec_witness :
    (⟨"e", 0, 2, 2, 0, 0, none⟩ : ZoomEffect) ∈
      ([⟨"e", 0, 2, 2, 0, 0, none⟩] : List ZoomEffect) ∧
    (⟨"e", 0, 2, 2, 0, 0, none⟩ : ZoomEffect).startTime ≤ 1 ∧
    (1 : ℚ) ≤ (⟨"e", 0, 2, 2, 0, 0, none⟩ : ZoomEffect).startTime +
      (⟨"e", 0, 2, 2, 0, 0, none⟩ : ZoomEffect).duration := by
  have h := (findActiveEffect_spec [⟨"e", 0, 2, 2, 0, 0, none⟩] 1
    ⟨"e", 0, 2, 2, 0, 0, none⟩
    (by simp [findActiveEffect, List.find?, isEffectActiveAt])).1
  exact ⟨h.1, h.2.1, h.2.2.1⟩

/-- C7: at any time not covered by any effect's window (in particular on
the empty collection), the resolver returns exactly
`{zoom: 1, centerX: 0.5, centerY: 0.5, isActive: false}`. -/
theorem calculateZoomParameters_inactive (effects : List ZoomEffect)
    (t : ℚ)
    (h : ∀ e ∈ effects, ¬(e.startTime ≤ t ∧ t ≤ e.startTime + e.duration)) :
    calculateZoomParameters effects t = ⟨1, 0.5, 0.5, false⟩ := by
  have hnone : findActiveEffect effects t = none := by
    refine List.find?_eq_none.mpr ?_
    intro e he hp
    exact h e he ((isEffectActiveAt_iff t e).mp hp)
  simp [calculateZoomParameters, hnone]

/-- Witness for C7: the empty collection at `t = 0`. -/
theorem calculateZoomParameters_inactive_witness :
    calculateZoomParameters [] 0 = ⟨1, 0.5, 0.5, false⟩ :=
  calculateZoomParameters_inactive [] 0 (by simp)

/-- C9: under the data invariant that every effect has positive duration,
the divisor of the resolver's `progress` computation — the looked-up
effect's `duration` — is never zero. -/
theorem progress_division_safe (effects : List ZoomEffect) (t : ℚ)
    (e : ZoomEffect) (hinv : ∀ x ∈ effects, 0 < x.duration)
    (hfind : findActiveEffect effects t = some e) :
    e.duration ≠ 0 :=
  ne_of_gt (hinv e (List.mem_of_find?_eq_some hfind))

/-- Witness for C9: the singleton collection with duration 2 at `t = 1`. -/
theorem progress_division_safe_witness :
    (⟨"e", 0, 2, 2, 0, 0, none⟩ : ZoomEffect).duration ≠ 0 :=
  progress_division_safe [⟨"e", 0, 2, 2, 0, 0, none⟩] 1
    ⟨"e", 0, 2, 2, 0, 0, none⟩ (by decide)
    (by simp [findActiveEffect, List.find?, isEffectActiveAt])

/-- When the lookup succeeds, the resolver output is the active-effect
record built from the looked-up effect. -/
theorem calculateZoomParameters_eq_of_find (effects : List ZoomEffect)
    (t : ℚ) (e : ZoomEffect) (hfind : findActiveEffect effects t = some e) :
    calculateZoomParameters effects t =
      ⟨1 + (e.level - 1) * zoomProgressOf e ((t - e.startTime) / e.duration),
       e.centerX, e.centerY, true⟩ := by
  simp [calculateZoomParameters, hfind]

/-- C1: for an active effect with positive duration and
`progress = (t - startTime) / duration` in `[0,1]`, the resolver returns
`zoom = 1 + (level - 1) * zoomProgress` with `zoomProgress` given by
`easeInOutCubic(progress*2)` for `progress < 0.5` and
`easeInOutCubic((1-progress)*2)` otherwise when the style is absent or
zoom-in-then-out, `easeInOutCubic(progress)` for zoom-in-only, and
`easeInOutCubic(1-progress)` for zoom-out-only; `centerX` and `centerY`
are passed through from the effect and `isActive` is true. -/
theorem calculateZoomParameters_active (effects : List ZoomEffect)
    (e : ZoomEffect) (t : ℚ) (hfind : findActiveEffect effects t = some e)
    (hd : 0 < e.duration)
    (hp0 : 0 ≤ (t - e.startTime) / e.duration)
    (hp1 : (t - e.startTime) / e.duration ≤ 1) :
    ((e.zoomStyle = none ∨ e.zoomStyle = some ZoomStyle.inOut) →
      (calculateZoomParameters effects t).zoom =
        1 + (e.level - 1) *
          (if (t - e.startTime) / e.duration < 0.5 then
            easeInOutCubic ((t - e.startTime) / e.duration * 2)
          else easeInOutCubic ((1 - (t - e.startTime) / e.duration) * 2))) ∧
    (e.zoomStyle = some ZoomStyle.inOnly →
      (calculateZoomParameters effects t).zoom =
        1 + (e.level - 1) *
          easeInOutCubic ((t - e.startTime) / e.duration)) ∧
    (e.zoomStyle = some ZoomStyle.outOnly →
      (calculateZoomParameters effects t).zoom =
        1 + (e.level - 1) *
          easeInOutCubic (1 - (t - e.startTime) / e.duration)) ∧
    (calculateZoomParameters effects t).centerX = e.centerX ∧
    (calculateZoomParameters effects t).centerY = e.centerY ∧
    (calculateZoomParameters effects t).isActive = true := by
  rw [calculateZoomParameters_eq_of_find effects t e hfind]
  refine ⟨?_, ?_, ?_, rfl, rfl, rfl⟩
  · rintro (hs | hs) <;> simp [zoomProgressOf, hs]
  · intro hs
    simp [zoomProgressOf, hs]
  · intro hs
    simp [zoomProgressOf, hs]

/-- Witness for C1: a style-absent effect over `[0, 1]` with level 2 at
`t = 1`. -/
theorem calculateZoomParameters_active_witness :
    (calculateZoomParameters [⟨"e", 0, 1, 2, 0, 0, none⟩] 1).centerX = 0 ∧
    (calculateZoomParameters [⟨"e", 0, 1, 2, 0, 0, none⟩] 1).isActive =
      true := by
  have h := calculateZoomParameters_active [⟨"e", 0, 1, 2, 0, 0, none⟩]
    ⟨"e", 0, 1, 2, 0, 0, none⟩ 1
    (by simp [findActiveEffect, List.find?, isEffectActiveAt])
    (by decide) (by simp) (by simp)
  exact ⟨h.2.2.2.1, h.2.2.2.2.2⟩

/-- On a singleton collection, any time inside the effect's window finds
that effect. -/
theorem findActiveEffect_singleton (e : ZoomEffect) (t : ℚ)
    (h1 : e.startTime ≤ t) (h2 : t ≤ e.startTime + e.duration) :
    findActiveEffect [e] t = some e := by
  simp [findActiveEffect, List.find?, isEffectActiveAt, h1, h2]

/-- C6: for an effect with `level ≥ 1` and positive duration, the resolved
zoom is 1 at the window start and `level` at the window end and is
non-decreasing for zoom-in-only; `level` at the start and 1 at the end and
non-increasing for zoom-out-only; and 1 at both window ends and `level` at
the midpoint for zoom-in-then-out (also when the style is absent). -/
theorem zoom_style_profiles (e : ZoomEffect) (t1 t2 : ℚ)
    (hl : 1 ≤ e.level) (hd : 0 < e.duration)
    (ht1 : e.startTime ≤ t1) (h12 : t1 ≤ t2)
    (ht2 : t2 ≤ e.startTime + e.duration) :
    (e.zoomStyle = some ZoomStyle.inOnly →
      (calculateZoomParameters [e] e.startTime).zoom = 1 ∧
      (calculateZoomParameters [e] (e.startTime + e.duration)).zoom =
        e.level ∧
      (calculateZoomParameters [e] t1).zoom ≤
        (calculateZoomParameters [e] t2).zoom) ∧
    (e.zoomStyle = some ZoomStyle.outOnly →
      (calculateZoomParameters [e] e.startTime).zoom = e.level ∧
      (calculateZoomParameters [e] (e.startTime + e.duration)).zoom = 1 ∧
      (calculateZoomParameters [e] t2).zoom ≤
        (calculateZoomParameters [e] t1).zoom) ∧
    (e.zoomStyle.getD ZoomStyle.inOut = ZoomStyle.inOut →
      (calculateZoomParameters [e] e.startTime).zoom = 1 ∧
      (calculateZoomParameters [e] (e.startTime + e.duration)).zoom = 1 ∧
      (calculateZoomParameters [e] (e.startTime + e.duration / 2)).zoom =
        e.level) := by
  have hdne : e.duration ≠ 0 := ne_of_gt hd
  have hwin_start : findActiveEffect [e] e.startTime = some e :=
    findActiveEffect_singleton e _ le_rfl (by linarith)
  have hwin_end :
      findActiveEffect [e] (e.startTime + e.duration) = some e :=
    findActiveEffect_singleton e _ (by linarith) le_rfl
  have hwin_mid :
      findActiveEffect [e] (e.startTime + e.duration / 2) = some e :=
    findActiveEffect_singleton e _ (by linarith) (by linarith)
  have hwin_t1 : findActiveEffect [e] t1 = some e :=
    findActiveEffect_singleton e _ ht1 (by linarith)
  have hwin_t2 : findActiveEffect [e] t2 = some e :=
    findActiveEffect_singleton e _ (by linarith) ht2
  have hz : ∀ t, findActiveEffect [e] t = some e →
      (calculateZoomParameters [e] t).zoom =
        1 + (e.level - 1) *
          zoomProgressOf e ((t - e.startTime) / e.duration) := by
    intro t hfind
    rw [calculateZoomParameters_eq_of_find _ _ _ hfind]
  have hp_start : (e.startTime - e.startTime) / e.duration = 0 := by
    rw [sub_self, zero_div]
  have hp_end :
      (e.startTime + e.duration - e.startTime) / e.duration = 1 := by
    rw [add_sub_cancel_left, div_self hdne]
  have hp_mid :
      (e.startTime + e.duration / 2 - e.startTime) / e.duration = 1 / 2 := by
    rw [add_sub_cancel_left]
    field_simp
    ring
  have hq0 : 0 ≤ (t1 - e.startTime) / e.duration :=
    div_nonneg (by linarith) hd.le
  have hq0' : 0 ≤ (t2 - e.startTime) / e.duration :=
    div_nonneg (by linarith) hd.le
  have hq12 :
      (t1 - e.startTime) / e.duration ≤ (t2 - e.startTime) / e.duration := by
    gcongr
  have hq1 : (t2 - e.startTime) / e.duration ≤ 1 := by
    rw [div_le_one hd]
    linarith
  have hq1' : (t1 - e.startTime) / e.duration ≤ 1 := le_trans hq12 hq1
  refine ⟨?_, ?_, ?_⟩
  · intro hst
    have hzp : ∀ p : ℚ, zoomProgressOf e p = easeInOutCubic p := by
      intro p
      simp [zoomProgressOf, hst]
    refine ⟨?_, ?_, ?_⟩
    · rw [hz _ hwin_start, hp_start, hzp, easeInOutCubic_zero]
      ring
    · rw [hz _ hwin_end, hp_end, hzp, easeInOutCubic_one]
      ring
    · rw [hz _ hwin_t1, hz _ hwin_t2, hzp, hzp]
      have hmono := easeInOutCubic_mono hq0 hq12 hq1
      nlinarith
  · intro hst
    have hzp : ∀ p : ℚ, zoomProgressOf e p = easeInOutCubic (1 - p) := by
      intro p
      simp [zoomProgressOf, hst]
    refine ⟨?_, ?_, ?_⟩
    · rw [hz _ hwin_start, hp_start, hzp, sub_zero, easeInOutCubic_one]
      ring
    · rw [hz _ hwin_end, hp_end, hzp, sub_self, easeInOutCubic_zero]
      ring
    · rw [hz _ hwin_t1, hz _ hwin_t2, hzp, hzp]
      have hmono := @easeInOutCubic_mono
        (1 - (t2 - e.startTime) / e.duration)
        (1 - (t1 - e.startTime) / e.duration)
        (by linarith) (by linarith) (by linarith)
      nlinarith
  · intro hst
    have hzp : ∀ p : ℚ, zoomProgressOf e p =
        if p < 0.5 then easeInOutCubic (p * 2)
        else easeInOutCubic ((1 - p) * 2) := by
      intro p
      unfold zoomProgressOf
      rw [hst]
    refine ⟨?_, ?_, ?_⟩
    · rw [hz _ hwin_start, hp_start, hzp, if_pos (by norm_num), zero_mul,
        easeInOutCubic_zero]
      ring
    · rw [hz _ hwin_end, hp_end, hzp, if_neg (by norm_num), sub_self,
        zero_mul, easeInOutCubic_zero]
      ring
    · rw [hz _ hwin_mid, hp_mid, hzp, if_neg (by norm_num),
        show ((1 : ℚ) - 1 / 2) * 2 = 1 by norm_num, easeInOutCubic_one]
      ring

/-- Witness for C6: the style-absent effect over `[0, 1]` with level 2. -/
theorem zoom_style_profiles_witness :
    (calculateZoomParameters [⟨"e", 0, 1, 2, 0, 0, none⟩]
      ((⟨"e", 0, 1, 2, 0, 0, none⟩ : ZoomEffect).startTime)).zoom = 1 ∧
    (calculateZoomParameters [⟨"e", 0, 1, 2, 0, 0, none⟩]
      ((⟨"e", 0, 1, 2, 0, 0, none⟩ : ZoomEffect).startTime +
        (⟨"e", 0, 1, 2, 0, 0, none⟩ : ZoomEffect).duration)).zoom = 1 ∧
    (calculateZoomParameters [⟨"e", 0, 1, 2, 0, 0, none⟩]
      ((⟨"e", 0, 1, 2, 0, 0, none⟩ : ZoomEffect).startTime +
        (⟨"e", 0, 1, 2, 0, 0, none⟩ : ZoomEffect).duration / 2)).zoom =
      (⟨"e", 0, 1, 2, 0, 0, none⟩ : ZoomEffect).level :=
  (zoom_style_profiles ⟨"e", 0, 1, 2, 0, 0, none⟩ 0 1 (by decide)
    (by decide) (by decide) (by decide) (by simp)).2.2 rfl

/-- C4: on every tick the smoothing factor is 0.8 exactly when the
absolute video-clock delta exceeds 0.1 and 0.3 otherwise, and the
smoother's output is stored as the new previous state — also on ticks
with no active effect. -/
theorem renderFrame_factor_policy (effects : List ZoomEffect)
    (w h : ℚ) (refs : RenderRefs) (ts vt : ℚ) :
    (renderFrame effects w h refs ts vt).1.prevZoomState =
      some (interpolateZoomState
        (calculateZoomParameters effects vt).toState refs.prevZoomState
        (interpolationFactorOf (vt - refs.lastVideoTime))) ∧
    (interpolationFactorOf (vt - refs.lastVideoTime) = 0.8 ↔
      0.1 < |vt - refs.lastVideoTime|) ∧
    (¬ 0.1 < |vt - refs.lastVideoTime| →
      interpolationFactorOf (vt - refs.lastVideoTime) = 0.3) := by
  refine ⟨rfl, ?_, ?_⟩
  · unfold interpolationFactorOf
    split
    · exact ⟨fun _ => by assumption, fun _ => rfl⟩
    · constructor
      · intro hc
        norm_num at hc
      · intro hc
        exact absurd hc (by assumption)
  · intro hc
    unfold interpolationFactorOf
    rw [if_neg hc]

/-- Witness for C4: a video-clock jump of magnitude 1 selects
factor 0.8. -/
theorem renderFrame_factor_policy_witness :
    interpolationFactorOf ((1 : ℚ) - 0) = 0.8 :=
  ((renderFrame_factor_policy [] 1 1 ⟨0, 0, none⟩ 0 1).2.1).mpr
    (by norm_num)

theorem Affine.idT_comp (m : Affine) : Affine.idT.comp m = m := by
  cases m
  simp [Affine.comp, Affine.idT]

theorem Affine.comp_assoc (m n k : Affine) :
    (m.comp n).comp k = m.comp (n.comp k) := by
  cases m
  cases n
  cases k
  simp only [Affine.comp, Affine.mk.injEq]
  refine ⟨by ring, by ring, by ring, by ring, by ring, by ring⟩

/-- C8: each tick clears the surface first; when the pre-smoothing target
is active the frame is drawn under the transform
`translate(cx, cy) ∘ scale(z, z) ∘ translate(-cx, -cy)` with
`cx = smoothed centerX × width`, `cy = smoothed centerY × height` and `z`
the smoothed zoom; when it is not active the frame is drawn under the
identity transform. -/
theorem renderFrame_draw_transform (effects : List ZoomEffect)
    (w h : ℚ) (refs : RenderRefs) (ts vt : ℚ) :
    (renderFrame effects w h refs ts vt).2.head? =
      some (RenderOp.clearRect 0 0 w h) ∧
    ((calculateZoomParameters effects vt).isActive = true →
      ctmAtDraw (renderFrame effects w h refs ts vt).2 Affine.idT [] =
        some ((Affine.translateT
            ((interpolateZoomState
              (calculateZoomParameters effects vt).toState
              refs.prevZoomState
              (interpolationFactorOf (vt - refs.lastVideoTime))).centerX * w)
            ((interpolateZoomState
              (calculateZoomParameters effects vt).toState
              refs.prevZoomState
              (interpolationFactorOf (vt - refs.lastVideoTime))).centerY *
              h)).comp
          ((Affine.scaleT
            (interpolateZoomState
              (calculateZoomParameters effects vt).toState
              refs.prevZoomState
              (interpolationFactorOf (vt - refs.lastVideoTime))).zoom
            (interpolateZoomState
              (calculateZoomParameters effects vt).toState
              refs.prevZoomState
              (interpolationFactorOf (vt - refs.lastVideoTime))).zoom).comp
            (Affine.translateT
              (-((interpolateZoomState
                (calculateZoomParameters effects vt).toState
                refs.prevZoomState
                (interpolationFactorOf
                  (vt - refs.lastVideoTime))).centerX * w))
              (-((interpolateZoomState
                (calculateZoomParameters effects vt).toState
                refs.prevZoomState
                (interpolationFactorOf
                  (vt - refs.lastVideoTime))).centerY * h)))))) ∧
    ((calculateZoomParameters effects vt).isActive = false →
      ctmAtDraw (renderFrame effects w h refs ts vt).2 Affine.idT [] =
        some Affine.idT) := by
  refine ⟨?_, ?_, ?_⟩
  · cases hact : (calculateZoomParameters effects vt).isActive <;>
      simp [renderFrame, hact]
  · intro hact
    simp only [renderFrame, hact, if_true]
    simp only [ctmAtDraw]
    rw [Affine.idT_comp, Affine.comp_assoc]
  · intro hact
    simp only [renderFrame, hact, if_false]
    simp only [ctmAtDraw]

/-- Witness for C8: with no effects the target is inactive and the frame
is drawn under the identity transform. -/
theorem renderFrame_draw_transform_witness :
    ctmAtDraw (renderFrame [] 1 1 ⟨0, 0, none⟩ 0 0).2 Affine.idT [] =
      some Affine.idT :=
  (renderFrame_draw_transform [] 1 1 ⟨0, 0, none⟩ 0 0).2.2 rfl
